import Mathlib

/-!
Verification of the algolib pure-python numerics kernel against its
specification.

The Python code computes with IEEE-754 binary64 values.  We use a shallow
embedding in which every finite double is represented exactly by a rational
number and every arithmetic operation is exact (rounding error is zero).
Special values (NaN, the two infinities and the negative zero) are modelled
by a dedicated datatype `F`.  Python raises `ZeroDivisionError` on float
division by zero, so division is modelled in the `Except` monad; functions
of the library that can raise return `Except Err F`.

Float literals of the source are embedded by their exact binary64 value
(a dyadic rational), written `num / 2 ^ k` below with the decimal literal
of the source quoted in a comment.
-/

/-- Model of a Python float: NaN, the infinities, the negative zero, and
finite values represented exactly as rationals (`fin 0` is `+0.0`). -/
inductive F where
  | nan : F
  | pinf : F
  | ninf : F
  | mzero : F
  | fin : ℚ → F
deriving DecidableEq

/-- Error values raised by the library: Python's ZeroDivisionError,
algolib's InvalidValueError, and algolib's ConvergenceError carrying the
iteration count, the last residual and the target tolerance. -/
inductive Err where
  | zeroDiv : Err
  | invalidValue : Err
  | convergence : ℕ → F → F → Err
deriving DecidableEq

/-- Equality of `Except` results is decidable when both components are. -/
def exceptDecEq {e a : Type} [DecidableEq e] [DecidableEq a] : DecidableEq (Except e a)
  | .error x, .error y =>
      if h : x = y then .isTrue (by rw [h]) else .isFalse (by simp [h])
  | .ok x, .ok y =>
      if h : x = y then .isTrue (by rw [h]) else .isFalse (by simp [h])
  | .error _, .ok _ => .isFalse (by simp)
  | .ok _, .error _ => .isFalse (by simp)

instance {e a : Type} [DecidableEq e] [DecidableEq a] : DecidableEq (Except e a) :=
  exceptDecEq

/-- The rational value of a finite float (`-0.0` has value `0`); junk `0`
on non-finite values, which callers never use. -/
def F.toQ : F → ℚ
  | F.fin q => q
  | _ => 0

/-- Finiteness test: everything except NaN and the infinities. -/
def F.isFinite : F → Bool
  | F.nan => false
  | F.pinf => false
  | F.ninf => false
  | _ => true

/-- Comparison key: NaN is incomparable (`none`); the infinities sit below
and above every finite value; `-0.0` compares equal to `0`. -/
def F.key : F → Option (ℤ × ℚ)
  | F.nan => none
  | F.ninf => some (-1, 0)
  | F.pinf => some (1, 0)
  | F.mzero => some (0, 0)
  | F.fin q => some (0, q)

/-- Python `<` on floats: false whenever NaN is involved. -/
def F.ltb (a b : F) : Bool :=
  match a.key, b.key with
  | some (c, q), some (d, p) => decide (c < d) || (decide (c = d) && decide (q < p))
  | _, _ => false

/-- Python `==` on floats: false whenever NaN is involved, `-0.0 == 0.0`. -/
def F.eqb (a b : F) : Bool :=
  match a.key, b.key with
  | some k1, some k2 => decide (k1 = k2)
  | _, _ => false

/-- Python `<=` on floats. -/
def F.leb (a b : F) : Bool := a.ltb b || a.eqb b

/-- Python unary minus on floats (negating `0.0` gives `-0.0`). -/
def F.fneg : F → F
  | F.nan => F.nan
  | F.pinf => F.ninf
  | F.ninf => F.pinf
  | F.mzero => F.fin 0
  | F.fin q => if q = 0 then F.mzero else F.fin (-q)

/-- Python float addition, exact on finite values.  (The IEEE sign of a zero
result is not tracked: a zero sum is `+0.0` here; no claim depends on it.) -/
def F.fadd : F → F → F
  | F.nan, _ => F.nan
  | _, F.nan => F.nan
  | F.pinf, F.ninf => F.nan
  | F.ninf, F.pinf => F.nan
  | F.pinf, _ => F.pinf
  | _, F.pinf => F.pinf
  | F.ninf, _ => F.ninf
  | _, F.ninf => F.ninf
  | a, b => F.fin (a.toQ + b.toQ)

/-- Python float subtraction, `a - b = a + (-b)` exactly. -/
def F.fsub (a b : F) : F := F.fadd a (F.fneg b)

/-- Python float multiplication, exact on finite values.  (Again the IEEE
sign of a zero product is not tracked.) -/
def F.fmul : F → F → F
  | F.nan, _ => F.nan
  | _, F.nan => F.nan
  | F.pinf, F.pinf => F.pinf
  | F.pinf, F.ninf => F.ninf
  | F.ninf, F.pinf => F.ninf
  | F.ninf, F.ninf => F.pinf
  | F.pinf, F.mzero => F.nan
  | F.mzero, F.pinf => F.nan
  | F.ninf, F.mzero => F.nan
  | F.mzero, F.ninf => F.nan
  | F.pinf, F.fin q => if q = 0 then F.nan else if 0 < q then F.pinf else F.ninf
  | F.fin q, F.pinf => if q = 0 then F.nan else if 0 < q then F.pinf else F.ninf
  | F.ninf, F.fin q => if q = 0 then F.nan else if 0 < q then F.ninf else F.pinf
  | F.fin q, F.ninf => if q = 0 then F.nan else if 0 < q then F.ninf else F.pinf
  | a, b => F.fin (a.toQ * b.toQ)

/-- Python float division.  CPython checks the divisor first: any division
by `0.0` or `-0.0` raises ZeroDivisionError, whatever the dividend. -/
def F.fdivE : F → F → Except Err F
  | _, F.mzero => .error .zeroDiv
  | a, F.fin q =>
      if q = 0 then .error .zeroDiv
      else
        match a with
        | F.nan => .ok F.nan
        | F.pinf => .ok (if 0 < q then F.pinf else F.ninf)
        | F.ninf => .ok (if 0 < q then F.ninf else F.pinf)
        | F.mzero => .ok (F.fin 0)
        | F.fin p => .ok (F.fin (p / q))
  | _, F.nan => .ok F.nan
  | F.nan, _ => .ok F.nan
  | F.pinf, F.pinf => .ok F.nan
  | F.pinf, F.ninf => .ok F.nan
  | F.ninf, F.pinf => .ok F.nan
  | F.ninf, F.ninf => .ok F.nan
  | _, F.pinf => .ok (F.fin 0)
  | _, F.ninf => .ok (F.fin 0)

/-- Python `abs` on floats (`abs(-0.0) = 0.0`). -/
def F.fabs : F → F
  | F.nan => F.nan
  | F.pinf => F.pinf
  | F.ninf => F.pinf
  | F.mzero => F.fin 0
  | F.fin q => F.fin |q|

/-- Python `max(a, b)`: returns `b` exactly when `b > a`, else `a`. -/
def F.pymax (a b : F) : F := if F.ltb a b then b else a

/-- Rational division guarded the way Python float division is: dividing
by zero raises ZeroDivisionError. -/
def qdiv (n d : ℚ) : Except Err ℚ :=
  if d = 0 then .error .zeroDiv else .ok (n / d)

/-- Python `int(x)` on a finite float: truncation toward zero. -/
def pytrunc (q : ℚ) : ℤ := if 0 ≤ q then ⌊q⌋ else ⌈q⌉

/-!  Exact embeddings of the float constants of
`src/algolib/numerics/constants.py` and of the literals appearing in the
numerics modules.  Each is the exact binary64 value of the Python literal.  -/

/-- Constant `LN2_HI = 0.6931471805599453` (exact binary64 value). -/
def LN2_HIq : ℚ := 6243314768165359 / 2 ^ 53

/-- Constant `LN2_LO = 9.4172321214581765e-18` (exact binary64 value). -/
def LN2_LOq : ℚ := 3056066547521285 / 2 ^ 108

/-- Constant `INV_LN2` (exact binary64 value of the literal, `1/ln 2`). -/
def INV_LN2q : ℚ := 3248660424278399 / 2 ^ 51

/-- Constant `LN2` (exact binary64 value of the literal, `ln 2`). -/
def LN2q : ℚ := 6243314768165359 / 2 ^ 53

/-- Constant `MAX_LOG = 709.782712893384` from exp.py (exact binary64). -/
def MAX_LOGq : ℚ := 6243314768165359 / 2 ^ 43

/-- Constant `MIN_LOG = -745.1332191019411` from exp.py (exact binary64). -/
def MIN_LOGq : ℚ := -6554261109157969 / 2 ^ 43

/-- Constant `PI2_HI = 1.5707963267948966` (exact binary64 value). -/
def PI2_HIq : ℚ := 884279719003555 / 2 ^ 49

/-- Constant `PI2_MID = 1.9231321691639753e-17` (exact binary64 value). -/
def PI2_MIDq : ℚ := 6240920700310861 / 2 ^ 108

/-- Constant `PI2_LO = -1.5579014153003124e-33` (exact binary64 value). -/
def PI2_LOq : ℚ := -4553750938523075 / 2 ^ 161

/-- Constant `INV_PI_2_HI = 0.6366197723675814` (exact binary64 value). -/
def INV_PI_2_HIq : ℚ := 5734161139222659 / 2 ^ 53

/-- Constant `INV_PI_2_LO = -5.692446494650995e-17` (exact binary64 value). -/
def INV_PI_2_LOq : ℚ := -4618261258055305 / 2 ^ 106

/-- The sticky-zero threshold literal `9.094947017729282e-13` used in
`sin`/`cos`; its binary64 value is exactly `2 ^ (-40)`. -/
def STICKYq : ℚ := 1 / 2 ^ 40

/-- The tolerance literal `1e-15` (exact binary64 value). -/
def TOL15q : ℚ := 2535301200456459 / 2 ^ 101

/-- The step literal `1e-8` (exact binary64 value). -/
def EPS8q : ℚ := 3022314549036573 / 2 ^ 78

/-!  Double-double primitives of `trig_pure.py`, embedded over exact
rationals.  In exact arithmetic every error-compensation term evaluates to
zero; the lemmas `twoSum_eq` etc. record this.  -/

/-- Helper `_two_sum(a, b)`: `s = a+b; bp = s-a; e = (a-(s-bp))+(b-bp)`. -/
def twoSum (a b : ℚ) : ℚ × ℚ :=
  let s := a + b
  let bp := s - a
  let e := (a - (s - bp)) + (b - bp)
  (s, e)

/-- Helper `_split(a)` with `C_SPLIT = 134217729.0 = 2^27 + 1`. -/
def split (a : ℚ) : ℚ × ℚ :=
  let c := (134217729 : ℚ) * a
  let ah := c - (c - a)
  let al := a - ah
  (ah, al)

/-- Helper `_two_prod(a, b)`. -/
def twoProd (a b : ℚ) : ℚ × ℚ :=
  let p := a * b
  let ahl := split a
  let bhl := split b
  let err := ((ahl.1 * bhl.1 - p) + ahl.1 * bhl.2 + ahl.2 * bhl.1) + ahl.2 * bhl.2
  (p, err)

/-- Helper `_dd_norm(h, l)`: renormalisation, a `two_sum`. -/
def ddNorm (h l : ℚ) : ℚ × ℚ := twoSum h l

/-- Helper `_dd_from_three(a_hi, a_mid, a_lo)`. -/
def ddFromThree (ahi amid alo : ℚ) : ℚ × ℚ :=
  let se := twoSum ahi amid
  let ht := twoSum se.1 alo
  ddNorm ht.1 (se.2 + ht.2)

/-- Helper `_dd_sub(a_hi, a_lo, b_hi, b_lo)`: `s,e = two_sum(a_hi, -b_hi);
t,f = two_sum(a_lo, -b_lo); return two_sum(s, t + f)`. -/
def ddSub (ahi alo bhi blo : ℚ) : ℚ × ℚ :=
  let se := twoSum ahi (-bhi)
  let tf := twoSum alo (-blo)
  twoSum se.1 (tf.1 + tf.2)

/-- Helper `_dd_add_pi2(r_hi, r_lo, sign)`: add `sign * π/2` in
double-double, using the three-term split of `π/2`. -/
def ddAddPi2 (rhi rlo : ℚ) (sgn : ℚ) : ℚ × ℚ :=
  let s0 := twoSum rhi (sgn * PI2_HIq)
  let s1 := twoSum rlo (sgn * PI2_MIDq)
  let s2 := twoSum s0.1 s1.1
  let tail := s0.2 + s1.2 + s2.2 + sgn * PI2_LOq
  ddNorm s2.1 tail

/-- Module constant `PI4_HI = PI2_HI * 0.5`. -/
def PI4_HIq : ℚ := PI2_HIq * (1 / 2)

/-- Module constant `PI4_MID = PI2_MID * 0.5`. -/
def PI4_MIDq : ℚ := PI2_MIDq * (1 / 2)

/-- Module constant `PI4_LO = PI2_LO * 0.5`. -/
def PI4_LOq : ℚ := PI2_LOq * (1 / 2)

/-- Module constant `PI4_H, PI4_L = _dd_from_three(PI4_HI, PI4_MID, PI4_LO)`. -/
def PI4_H : ℚ := (ddFromThree PI4_HIq PI4_MIDq PI4_LOq).1

/-- Low part of the double-double π/4 constant. -/
def PI4_L : ℚ := (ddFromThree PI4_HIq PI4_MIDq PI4_LOq).2

/-- Helper `_round_half_even(y)`: round to nearest, ties to even, built
from `int(y)` (truncation) plus the fraction tests of the source. -/
def roundHalfEven (y : ℚ) : ℤ :=
  let k := pytrunc y
  let frac := y - k
  if 0 ≤ y then
    if 1 / 2 < frac ∨ (frac = 1 / 2 ∧ k % 2 = 1) then k + 1 else k
  else
    if frac < -(1 / 2) ∨ (frac = -(1 / 2) ∧ k % 2 = 1) then k - 1 else k

/-- Trigonometric range reduction `_reduce_pi2(x)`: computes
`y ≈ x·(2/π)` in double-double form, rounds to the nearest integer `k`
(ties to even), forms `r = x - k·(π/2)` with the three-term split, and
post-corrects `k` by ±1 (at most twice) when `r` falls outside
`[-π/4, π/4]`; returns `(k & 3, r_hi, r_lo)`.  Python's `k & 3` on a
(possibly negative) int is the Euclidean remainder `k % 4`. -/
def reducePi2 (x : ℚ) : ℤ × ℚ × ℚ :=
  let t1 := twoProd x INV_PI_2_HIq
  let t2 := twoProd x INV_PI_2_LOq
  let st := twoSum t1.1 t2.1
  let e := t1.2 + t2.2
  let yhu := twoSum st.1 e
  let yl0 := st.2 + yhu.2
  let yn := ddNorm yhu.1 yl0
  let k := roundHalfEven (yn.1 + yn.2)
  let kh : ℚ := (k : ℚ)
  let a1 := twoProd kh PI2_HIq
  let b1 := twoSum x (-a1.1)
  let err1 := -a1.2 + b1.2
  let a2 := twoProd kh PI2_MIDq
  let b2 := twoSum b1.1 (-a2.1)
  let err2 := err1 + (-a2.2 + b2.2)
  let a3 := twoProd kh PI2_LOq
  let b3 := twoSum b2.1 (-a3.1)
  let err3 := err2 + (-a3.2 + b3.2)
  let rr := twoSum b3.1 err3
  let d := ddSub rr.1 rr.2 PI4_H PI4_L
  if 0 < d.1 ∨ (d.1 = 0 ∧ 0 < d.2) then
    let r1 := ddAddPi2 rr.1 rr.2 (-1)
    let d1 := ddSub r1.1 r1.2 PI4_H PI4_L
    if 0 < d1.1 ∨ (d1.1 = 0 ∧ 0 < d1.2) then
      let r2 := ddAddPi2 r1.1 r1.2 (-1)
      ((k + 2) % 4, r2.1, r2.2)
    else ((k + 1) % 4, r1.1, r1.2)
  else
    let d2 := ddSub (-rr.1) (-rr.2) PI4_H PI4_L
    if 0 < d2.1 ∨ (d2.1 = 0 ∧ 0 < d2.2) then
      let r1 := ddAddPi2 rr.1 rr.2 1
      let d3 := ddSub (-r1.1) (-r1.2) PI4_H PI4_L
      if 0 < d3.1 ∨ (d3.1 = 0 ∧ 0 < d3.2) then
        let r2 := ddAddPi2 r1.1 r1.2 1
        ((k - 2) % 4, r2.1, r2.2)
      else ((k - 1) % 4, r1.1, r1.2)
    else (k % 4, rr.1, rr.2)

/-- The exact rational value of the code's three-term `π/2`. -/
def PI2full : ℚ := PI2_HIq + PI2_MIDq + PI2_LOq

/-- Cooked form of the range reduction: in exact arithmetic the
double-double plumbing of `_reduce_pi2` collapses to `r = x - k·(π/2)`
followed by the two-sided post-correction against `π/4`. -/
def reduceCorrect (k : ℤ) (r : ℚ) : ℤ × ℚ × ℚ :=
  if 0 < r - PI2full / 2 then
    if 0 < r - PI2full - PI2full / 2 then ((k + 2) % 4, r - PI2full - PI2full, 0)
    else ((k + 1) % 4, r - PI2full, 0)
  else if 0 < -r - PI2full / 2 then
    if 0 < -(r + PI2full) - PI2full / 2 then ((k - 2) % 4, r + PI2full + PI2full, 0)
    else ((k - 1) % 4, r + PI2full, 0)
  else (k % 4, r, 0)

/-!  Polynomial kernels of `trig_pure.py` (fdlibm-style coefficients),
embedded by the exact binary64 value of each coefficient literal.  -/

/-- Coefficient `_S1 = -1.66666666666666666666666666667e-01`. -/
def S1q : ℚ := -6004799503160661 / 2 ^ 55

/-- Coefficient `_S2 = 8.33333333333333333333333333333e-03`. -/
def S2q : ℚ := 4803839602528529 / 2 ^ 59

/-- Coefficient `_S3 = -1.98412698412698412698412698413e-04`. -/
def S3q : ℚ := -3660068268593165 / 2 ^ 64

/-- Coefficient `_S4 = 2.75573192239858906525573192240e-06`. -/
def S4q : ℚ := 1626697008263629 / 2 ^ 69

/-- Coefficient `_S5 = -2.50521083854417187750521083854e-08`. -/
def S5q : ℚ := -1892883791434041 / 2 ^ 76

/-- Coefficient `_S6 = 1.60590438368216145993923771702e-10`. -/
def S6q : ℚ := 6212541674450185 / 2 ^ 85

/-- Coefficient `_S7 = -7.64716373181981647590113198579e-13`. -/
def S7q : ℚ := -7573384136472607 / 2 ^ 93

/-- Coefficient `_C1 = -5.0e-01`. -/
def C1q : ℚ := -(1 / 2)

/-- Coefficient `_C2 = 4.16666666666666666666666666667e-02`. -/
def C2q : ℚ := 6004799503160661 / 2 ^ 57

/-- Coefficient `_C3 = -1.38888888888888888888888888889e-03`. -/
def C3q : ℚ := -6405119470038039 / 2 ^ 62

/-- Coefficient `_C4 = 2.48015873015873015873015873016e-05`. -/
def C4q : ℚ := 3660068268593165 / 2 ^ 67

/-- Coefficient `_C5 = -2.75573192239858906525573192240e-07`. -/
def C5q : ℚ := -1301357606610903 / 2 ^ 72

/-- Coefficient `_C6 = 2.08767569878680989792100903212e-09`. -/
def C6q : ℚ := 630961263811347 / 2 ^ 78

/-- Coefficient `_C7 = -1.14707455977297247138516979787e-11`. -/
def C7q : ℚ := -7100047627943069 / 2 ^ 89

/-- Coefficient `_C8 = 4.77947733238738529743820749112e-14`. -/
def C8q : ℚ := 7573384136472607 / 2 ^ 97

/-- Kernel `_sin_kernel(r)`: Horner polynomial for `sin` on the reduced
interval. -/
def sinKernel (r : ℚ) : ℚ :=
  let z := r * r
  r + r * z * ((((((S7q * z + S6q) * z + S5q) * z + S4q) * z + S3q) * z + S2q) * z + S1q)

/-- Kernel `_cos_kernel(r)`: Horner polynomial for `cos` on the reduced
interval. -/
def cosKernel (r : ℚ) : ℚ :=
  let z := r * r
  1 + z * (((((((C8q * z + C7q) * z + C6q) * z + C5q) * z + C4q) * z + C3q) * z + C2q) * z + C1q)

/-- Helper `_sin_cos_dd(r_hi, r_lo)`: kernels at `a = r_hi` with a Taylor
correction in `b = r_lo` (the divisions `1.0/6.0` etc. are exact here). -/
def sinCosDd (rhi rlo : ℚ) : ℚ × ℚ :=
  let s0 := sinKernel rhi
  let c0 := cosKernel rhi
  let b := rlo
  if b = 0 then (s0, c0)
  else
    let b2 := b * b
    let b3 := b2 * b
    let b4 := b2 * b2
    let b5 := b4 * b
    let sb := b - (1 / 6) * b3 + (1 / 120) * b5
    let cb := 1 - (1 / 2) * b2 + (1 / 24) * b4
    (s0 * cb + c0 * sb, c0 * cb - s0 * sb)

/-- Function `sin(x)` on a finite value: range-reduce, apply the sticky
branch when the full remainder is below `2^-40` in magnitude (returning the
quadrant combination of `s ≈ r_sum`, `c = 1.0`), else combine the kernel
values by quadrant. -/
def sinQ (x : ℚ) : ℚ :=
  let t := reducePi2 x
  let q := t.1
  let rsum := t.2.1 + t.2.2
  if -STICKYq < rsum ∧ rsum < STICKYq then
    if q = 0 then rsum else if q = 1 then 1 else if q = 2 then -rsum else -1
  else
    let sc := sinCosDd t.2.1 t.2.2
    if q = 0 then sc.1 else if q = 1 then sc.2 else if q = 2 then -sc.1 else -sc.2

/-- Function `cos(x)` on a finite value (same structure as `sinQ`). -/
def cosQ (x : ℚ) : ℚ :=
  let t := reducePi2 x
  let q := t.1
  let rsum := t.2.1 + t.2.2
  if -STICKYq < rsum ∧ rsum < STICKYq then
    if q = 0 then 1 else if q = 1 then -rsum else if q = 2 then -1 else rsum
  else
    let sc := sinCosDd t.2.1 t.2.2
    if q = 0 then sc.2 else if q = 1 then -sc.1 else if q = 2 then -sc.2 else sc.1

/-- Public `sin`: non-finite inputs return NaN (`_is_finite` guard). -/
def sinF (x : F) : F := if x.isFinite then F.fin (sinQ x.toQ) else F.nan

/-- Public `cos`: non-finite inputs return NaN. -/
def cosF (x : F) : F := if x.isFinite then F.fin (cosQ x.toQ) else F.nan

/-- Value computed by `_compensated_div(n, d)` when no division by zero
occurs: naive quotient plus two exact residual corrections. -/
def compDivVal (n d : ℚ) : ℚ :=
  let q0 := n / d
  let p1 := twoProd q0 d
  let r := (n - p1.1) - p1.2
  let q := q0 + r / d
  let p2 := twoProd q d
  let r2 := (n - p2.1) - p2.2
  q + r2 / d

/-- Helper `_compensated_div(n, d)`: in Python the first statement `n / d`
raises ZeroDivisionError when `d` is exactly zero; `d` never changes, so
the check is hoisted in front of the arithmetic. -/
def compDiv (n d : ℚ) : Except Err ℚ :=
  if d = 0 then .error .zeroDiv else .ok (compDivVal n d)

/-- Function `tan(x)` on a finite value: compensated quotient `s/c` in
quadrants 0 and 2, `-c/s` in quadrants 1 and 3. -/
def tanQ (x : ℚ) : Except Err ℚ :=
  let t := reducePi2 x
  let q := t.1
  let sc := sinCosDd t.2.1 t.2.2
  if q = 0 ∨ q = 2 then compDiv sc.1 sc.2
  else (compDiv sc.2 sc.1).map (fun v => -v)

/-- Public `tan`: non-finite inputs return NaN; otherwise the compensated
quotient, which raises ZeroDivisionError on an exactly-zero denominator. -/
def tanF (x : F) : Except Err F :=
  if x.isFinite then (tanQ x.toQ).map F.fin else .ok F.nan

/-!  The exponential of `exp.py`.  -/

/-- First guard of exp's range reduction: re-subtract one `ln 2` if `r`
drifted outside `[-ln2/2, ln2/2]`. -/
def expGuard1 (k : ℤ) (r : ℚ) : ℤ × ℚ :=
  let half := 1 / 2 * (LN2_HIq + LN2_LOq)
  if half < r then (k + 1, r - LN2_HIq - LN2_LOq)
  else if r < -half then (k - 1, r + LN2_HIq + LN2_LOq)
  else (k, r)

/-- Second guard of exp's range reduction: absorb one `ln 2` into `r`
when `k` would reach ±1024. -/
def expGuard2 (k : ℤ) (r : ℚ) : ℤ × ℚ :=
  if 1024 ≤ k then (k - 1, r + LN2_HIq + LN2_LOq)
  else if k ≤ -1024 then (k + 1, r - LN2_HIq - LN2_LOq)
  else (k, r)

/-- Range reduction of `exp`: `k = int(x * LOG2_E)` (truncation toward
zero), `r = x - k*LN2_HI - k*LN2_LO`, then the two guards. -/
def expReduce (x : ℚ) : ℤ × ℚ :=
  let k0 := pytrunc (x * INV_LN2q)
  let r0 := x - (k0 : ℚ) * LN2_HIq - (k0 : ℚ) * LN2_LOq
  let g1 := expGuard1 k0 r0
  expGuard2 g1.1 g1.2

/-- Padé [5/5] kernel and reconstruction of `exp` on a clamped finite
input.  Python's `2.0 ** k` is modelled by the exact `(2:ℚ) ^ k`; the
claim-C6 theorem shows `k ∈ [-1074, 1023]` here, the range on which the
Python expression neither overflows nor flushes to zero incorrectly. -/
def expCore (x : ℚ) : Except Err ℚ :=
  let g := expReduce x
  let r := g.2
  let r2 := r * r
  let r3 := r2 * r
  let r4 := r2 * r2
  let r5 := r4 * r
  let num := 30240 + 15120 * r + 3360 * r2 + 420 * r3 + 30 * r4 + r5
  let den := 30240 - 15120 * r + 3360 * r2 - 420 * r3 + 30 * r4 - r5
  (qdiv num den).map (fun er => (2 : ℚ) ^ g.1 * er)

/-- Clamping stage of `exp` on finite values: saturate to `+Inf` above
`MAX_LOG` and to `0.0` below `MIN_LOG`. -/
def expFin (q : ℚ) : Except Err F :=
  if MAX_LOGq < q then .ok F.pinf
  else if q < MIN_LOGq then .ok (F.fin 0)
  else (expCore q).map F.fin

/-- Public `exp`: special values first, then the clamped finite path. -/
def expF : F → Except Err F
  | F.nan => .ok F.nan
  | F.pinf => .ok F.pinf
  | F.ninf => .ok (F.fin 0)
  | F.mzero => expFin 0
  | F.fin q => expFin q

/-!  Bit-decomposition utilities of `stable.py`.  -/

/-- Finite non-zero branch of `frexp`: the hex parse recovers exactly
`(mant, bexp)` with `|x| = mant * 2^bexp` and `mant ∈ [0, 2)`; the two
normalisation while-loops then halve or double `mant` (adjusting `bexp`)
preserving `mant * 2^bexp` until `mant ∈ [0.5, 1)`.  On exact values their
net effect is `e = ⌊log2 |x|⌋ + 1` and `m = x / 2^e`, which is the closed
form used here. -/
def frexpFin (q : ℚ) : F × ℤ :=
  let e := Int.log 2 |q| + 1
  (F.fin (q / 2 ^ e), e)

/-- Function `frexp(x)`: specials `(NaN, 0)`, `(±Inf, 0)`, `(±0.0, 0)`
(the zero branch returns `xf` itself, preserving its sign), else the
normalised mantissa/exponent pair. -/
def frexpF : F → F × ℤ
  | F.nan => (F.nan, 0)
  | F.pinf => (F.pinf, 0)
  | F.ninf => (F.ninf, 0)
  | F.mzero => (F.mzero, 0)
  | F.fin q => if q = 0 then (F.fin 0, 0) else frexpFin q

/-- Scale loop of `ldexp`: exponentiation by squaring,
`while n > 0: if n & 1: scale *= base; base *= base; n >>= 1`. -/
def powLoop (base scale : ℚ) (n : ℕ) : ℚ :=
  if h : n = 0 then scale
  else powLoop (base * base) (if n % 2 = 1 then scale * base else scale) (n / 2)
termination_by n
decreasing_by exact Nat.div_lt_self (Nat.pos_of_ne_zero h) one_lt_two

/-- Finite branch of `ldexp`: `±0.0` is returned unchanged for any
exponent; otherwise `m * scale` with `scale = base ^ |e|` for
`base = 2.0` (`e ≥ 0`) or `0.5` (`e < 0`). -/
def ldexpFin (q : ℚ) (e : ℤ) : F :=
  if q = 0 then F.fin 0
  else
    let n := e.natAbs
    let base : ℚ := if 0 ≤ e then 2 else 1 / 2
    F.fin (q * powLoop base 1 n)

/-- Function `ldexp(m, e)`: NaN/Inf propagate, the zeros are returned
unchanged, else the scale loop is run. -/
def ldexpF (m : F) (e : ℤ) : F :=
  match m with
  | F.nan => F.nan
  | F.pinf => F.pinf
  | F.ninf => F.ninf
  | F.mzero => F.mzero
  | F.fin q => ldexpFin q e

/-!  The generic Newton-Raphson root finder of `rootfinding.py`.  The
callables `f` and `fprime` are modelled as functions into `Except Err F`
so that exceptions raised inside them propagate, as in Python.  -/

/-- Derivative evaluation inside `newton`'s loop: the supplied `fprime`,
or the forward finite difference `(f(x+h) - f(x)) / h` with the
magnitude-scaled step `h = fd_eps * max(1.0, abs(x))` when it is None. -/
def newtonDeriv (f : F → Except Err F) (fp : Option (F → Except Err F))
    (fdEps x fx : F) : Except Err F :=
  match fp with
  | some g => g x
  | none =>
      let hstep := F.fmul fdEps (F.pymax (F.fin 1) (F.fabs x))
      match f (F.fadd x hstep) with
      | .error e => .error e
      | .ok fxh => F.fdivE (F.fsub fxh fx) hstep

/-- Loop of `newton` from iteration index `i` with budget `maxIter`:
raises ConvergenceError `(i, f(x), tol)` when the derivative compares
equal to `0.0`, accepts `x_new = x + dx` when
`abs(dx) <= tol * max(1.0, abs(x_new))`, and raises ConvergenceError
`(maxIter, abs(f(x)), tol)` when the budget is exhausted. -/
def newtonLoop (f : F → Except Err F) (fp : Option (F → Except Err F))
    (tol fdEps : F) (maxIter : ℕ) (i : ℕ) (x : F) : Except Err F :=
  if h : i < maxIter then
    match f x with
    | .error e => .error e
    | .ok fx =>
      match newtonDeriv f fp fdEps x fx with
      | .error e => .error e
      | .ok dfx =>
        if dfx.eqb (F.fin 0) then .error (.convergence i fx tol)
        else
          match F.fdivE (F.fneg fx) dfx with
          | .error e => .error e
          | .ok dx =>
            let xn := F.fadd x dx
            if (F.fabs dx).leb (F.fmul tol (F.pymax (F.fin 1) (F.fabs xn))) then .ok xn
            else newtonLoop f fp tol fdEps maxIter (i + 1) xn
  else
    match f x with
    | .error e => .error e
    | .ok v => .error (.convergence maxIter (F.fabs v) tol)
termination_by maxIter - i
decreasing_by omega

/-- Function `newton(f, fprime, x0, tol, max_iter, fd_eps)`. -/
def newton (f : F → Except Err F) (fp : Option (F → Except Err F))
    (x0 tol : F) (maxIter : ℕ) (fdEps : F) : Except Err F :=
  newtonLoop f fp tol fdEps maxIter 0 x0

/-!  `newton_sqrt` of `sqrt.py`.  -/

/-- Newton iteration of `newton_sqrt` with the overflow-safe update
`y = 0.5 * (y + x / y)`, accepting when
`abs(y - prev) <= tol * max(1.0, y)` and returning the last estimate when
the budget runs out. -/
def sqrtLoop (x tol : ℚ) (y : ℚ) (fuel : ℕ) : Except Err ℚ :=
  match fuel with
  | 0 => .ok y
  | fuel + 1 =>
    match qdiv x y with
    | .error e => .error e
    | .ok d =>
      let y2 := 1 / 2 * (y + d)
      if |y2 - y| ≤ tol * max 1 y2 then .ok y2 else sqrtLoop x tol y2 fuel

/-- Initial guess of `newton_sqrt`: the binary exponent is read off the
hex representation (`-1022` in the subnormal range, else `⌊log2 x⌋`),
halved with Python's floor division, and `2.0 ** (p // 2)` is formed;
the `y == 0.0` safety fallback of the source is kept. -/
def sqrtSeed (q : ℚ) : ℚ :=
  let p : ℤ := if |q| < 2 ^ (-1022 : ℤ) then -1022 else Int.log 2 |q|
  let y := (2 : ℚ) ^ (Int.fdiv p 2)
  if y = 0 then 1 else y

/-- Function `newton_sqrt(x)`: specials NaN→NaN, `x<0`→NaN, `0`→`0.0`,
`+Inf`→`+Inf`, then the Newton loop with budget `max_iter = 100` and
`tol = 1e-15`.  The final catch-all arm is unreachable: every non-finite
or non-positive input is handled by the special cases. -/
def newtonSqrtF (x : F) : Except Err F :=
  if ¬ (x.eqb x) then .ok F.nan
  else if x.ltb (F.fin 0) then .ok F.nan
  else if x.eqb (F.fin 0) then .ok (F.fin 0)
  else if x.eqb F.pinf then .ok F.pinf
  else
    match x with
    | F.fin q => (sqrtLoop q TOL15q (sqrtSeed q) 100).map F.fin
    | _ => .ok F.nan

/-!  `log` of `log.py`.  -/

/-- General branch of `log`: frexp-based seed
`y0 = e*LN2 + (t - 0.5 t² + t³/3)` with `t = m - 1`, refined by the
generic Newton solver on `f(y) = exp(y) - x` with `fprime = exp`,
`tol = 1e-15`, `max_iter = 50` (and the default `fd_eps = 1e-8`, unused
since `fprime` is given). -/
def logCore (q : ℚ) : Except Err F :=
  let fr := frexpF (F.fin q)
  let m := fr.1.toQ
  let e := fr.2
  let t := m - 1
  let seed := t - 1 / 2 * t * t + t * t * t / 3
  let y0 := (e : ℚ) * LN2q + seed
  newton
    (fun y =>
      match expF y with
      | .error er => .error er
      | .ok v => .ok (F.fsub v (F.fin q)))
    (some (fun y => expF y)) (F.fin y0) (F.fin TOL15q) 50 (F.fin EPS8q)

/-- Function `log(x)` (natural-log path, `base is None`): NaN→NaN,
`+Inf`→`+Inf`, then `x <= 0.0` raises InvalidValueError (note: this
includes `x == 0.0`), `x == 1.0`→`0.0`, else the seeded Newton
refinement.  The final catch-all arm is unreachable. -/
def logF (x : F) : Except Err F :=
  if ¬ (x.eqb x) then .ok F.nan
  else if x.eqb F.pinf then .ok F.pinf
  else if x.leb (F.fin 0) then .error .invalidValue
  else if x.eqb (F.fin 1) then .ok (F.fin 0)
  else
    match x with
    | F.fin q => logCore q
    | _ => .error .invalidValue

/-!  The hyperbolic family of `hyper.py`.  That module imports `INF`,
`NAN` and `isfinite_f` from `algolib.numerics.constants`, but the
constants module present under src does not define them; they are
modelled from the spec below.  -/

/-- Modelled from the spec: `constants.INF`, imported by hyper.py yet
missing from the constants module under src; the spec's classification
tags (±Inf) fix it as the positive-infinity float. -/
def INFc : F := F.pinf

/-- Modelled from the spec: `constants.NAN`, likewise missing from src;
the spec's non-finite policy fixes it as the NaN float. -/
def NANc : F := F.nan

/-- Modelled from the spec: `constants.isfinite_f`, missing from src; the
spec requires every public entry point to classify NaN/Inf first, and the
in-repo finiteness tests (`_is_finite` in trig, `_isfinite` in hyper) all
test `(x == x) and (-INF < x < INF)`. -/
def isfinite_f (x : F) : Bool := x.eqb x && ((F.fneg INFc).ltb x && x.ltb INFc)

/-- Local helper `_isfinite` of hyper.py: `(x == x) and (-INF < x < INF)`. -/
def hyperIsFinite (x : F) : Bool := x.eqb x && ((F.fneg INFc).ltb x && x.ltb INFc)

/-- Local helper `_abs` of hyper.py: `-x if x < 0.0 else x`. -/
def hyperAbs (x : F) : F := if x.ltb (F.fin 0) then F.fneg x else x

/-- Function `sinh(x)`: NaN on non-finite input; `x` itself below
`1e-8`; dominant term `sgn * 0.5 * exp(|x|)` above `350.0` (saturating to
signed infinity if `exp` overflows); else `0.5 * (exp(x) - 1/exp(x))`. -/
def sinhF (x : F) : Except Err F :=
  if ¬ hyperIsFinite x then .ok NANc
  else
    let ax := hyperAbs x
    if ax.ltb (F.fin EPS8q) then .ok x
    else if (F.fin 350).ltb ax then
      match expF ax with
      | .error e => .error e
      | .ok ex =>
        if ¬ (ex.eqb ex) ∨ ex.eqb INFc then
          .ok (F.fmul (if (F.fin 0).leb x then F.fin 1 else F.fin (-1)) INFc)
        else
          .ok (F.fmul (if (F.fin 0).leb x then F.fin 1 else F.fin (-1))
            (F.fmul (F.fin (1 / 2)) ex))
    else
      match expF x with
      | .error e => .error e
      | .ok ex =>
        match F.fdivE (F.fin 1) ex with
        | .error e => .error e
        | .ok inv => .ok (F.fmul (F.fin (1 / 2)) (F.fsub ex inv))

/-- Function `cosh(x)`: NaN on non-finite input; `1 + 0.5*x*x` below
`1e-8`; `0.5 * exp(|x|)` above `350.0` (saturating to `+Inf`); else
`0.5 * (exp(x) + 1/exp(x))`. -/
def coshF (x : F) : Except Err F :=
  if ¬ hyperIsFinite x then .ok NANc
  else
    let ax := hyperAbs x
    if ax.ltb (F.fin EPS8q) then
      .ok (F.fadd (F.fin 1) (F.fmul (F.fmul (F.fin (1 / 2)) x) x))
    else if (F.fin 350).ltb ax then
      match expF ax with
      | .error e => .error e
      | .ok ex =>
        if ¬ (ex.eqb ex) ∨ ex.eqb INFc then .ok INFc
        else .ok (F.fmul (F.fin (1 / 2)) ex)
    else
      match expF x with
      | .error e => .error e
      | .ok ex =>
        match F.fdivE (F.fin 1) ex with
        | .error e => .error e
        | .ok inv => .ok (F.fmul (F.fin (1 / 2)) (F.fadd ex inv))

/-- Function `tanh(x)`: NaN on non-finite input; signed zero preserved;
`±1.0` beyond `20.0`; else `sgn * (e^{2|x|} - 1)/(e^{2|x|} + 1)`. -/
def tanhF (x : F) : Except Err F :=
  if ¬ isfinite_f x then .ok NANc
  else if x.eqb (F.fin 0) then .ok x
  else
    let sgn : F := if (F.fin 0).ltb x then F.fin 1 else F.fin (-1)
    let ax := if (F.fin 0).ltb x then x else F.fneg x
    if (F.fin 20).ltb ax then .ok (F.fmul sgn (F.fin 1))
    else
      match expF (F.fmul (F.fin 2) ax) with
      | .error e => .error e
      | .ok e2a =>
        match F.fdivE (F.fsub e2a (F.fin 1)) (F.fadd e2a (F.fin 1)) with
        | .error e => .error e
        | .ok t => .ok (F.fmul sgn t)

/-- Function `asinh(x)`: NaN on non-finite input; signed zero preserved;
else `sgn * log(|x| + sqrt(x² + 1))`. -/
def asinhF (x : F) : Except Err F :=
  if ¬ isfinite_f x then .ok NANc
  else if x.eqb (F.fin 0) then .ok x
  else
    let sgn : F := if (F.fin 0).ltb x then F.fin 1 else F.fin (-1)
    let ax := if (F.fin 0).ltb x then x else F.fneg x
    match newtonSqrtF (F.fadd (F.fmul ax ax) (F.fin 1)) with
    | .error e => .error e
    | .ok s =>
      match logF (F.fadd ax s) with
      | .error e => .error e
      | .ok l => .ok (F.fmul sgn l)

/-- Function `acosh(x)`: NaN on non-finite input; NaN (no exception) for
`x < 1`; `0.0` at `x == 1`; else `log(x + sqrt((x-1)*(x+1)))`. -/
def acoshF (x : F) : Except Err F :=
  if ¬ isfinite_f x then .ok NANc
  else if x.ltb (F.fin 1) then .ok NANc
  else if x.eqb (F.fin 1) then .ok (F.fin 0)
  else
    match newtonSqrtF (F.fmul (F.fsub x (F.fin 1)) (F.fadd x (F.fin 1))) with
    | .error e => .error e
    | .ok t => logF (F.fadd x t)

/-- Function `atanh(x)`: NaN on non-finite input; NaN (no exception)
outside `-1 < x < 1`; signed zero preserved; else
`sgn * 0.5 * log((1 + |x|) / (1 - |x|))`. -/
def atanhF (x : F) : Except Err F :=
  if ¬ isfinite_f x then .ok NANc
  else if ¬ ((F.fin (-1)).ltb x && x.ltb (F.fin 1)) then .ok NANc
  else if x.eqb (F.fin 0) then .ok x
  else
    let sgn : F := if (F.fin 0).ltb x then F.fin 1 else F.fin (-1)
    let ax := if (F.fin 0).ltb x then x else F.fneg x
    match F.fdivE (F.fadd (F.fin 1) ax) (F.fsub (F.fin 1) ax) with
    | .error e => .error e
    | .ok quo =>
      match logF quo with
      | .error e => .error e
      | .ok l => .ok (F.fmul (F.fmul sgn (F.fin (1 / 2))) l)

theorem twoSum_eq (a b : ℚ) : twoSum a b = (a + b, 0) := by
  unfold twoSum; refine Prod.ext rfl ?_; ring

theorem split_eq (a : ℚ) : split a = (a, 0) := by
  unfold split; refine Prod.ext (by ring) (by ring)

theorem twoProd_eq (a b : ℚ) : twoProd a b = (a * b, 0) := by
  unfold twoProd; rw [split_eq, split_eq]; refine Prod.ext rfl ?_; ring

theorem ddNorm_eq (h l : ℚ) : ddNorm h l = (h + l, 0) := twoSum_eq h l

theorem ddFromThree_eq (a b c : ℚ) : ddFromThree a b c = (a + b + c, 0) := by
  simp [ddFromThree, twoSum_eq, ddNorm_eq]

theorem ddSub_eq (ah al bh bl : ℚ) : ddSub ah al bh bl = (ah - bh + (al - bl), 0) := by
  unfold ddSub
  rw [twoSum_eq, twoSum_eq, twoSum_eq]
  refine Prod.ext (by ring) rfl

theorem ddAddPi2_eq (h l s : ℚ) :
    ddAddPi2 h l s = (h + l + s * (PI2_HIq + PI2_MIDq + PI2_LOq), 0) := by
  simp only [ddAddPi2, twoSum_eq, ddNorm_eq]
  refine Prod.ext (by dsimp; ring) rfl

theorem PI4_H_eq : PI4_H = PI2full / 2 := by
  rw [PI4_H, ddFromThree_eq]
  unfold PI4_HIq PI4_MIDq PI4_LOq PI2full
  ring

theorem PI4_L_eq : PI4_L = 0 := by
  rw [PI4_L, ddFromThree_eq]

theorem reducePi2_cooked (x : ℚ) :
    reducePi2 x =
      reduceCorrect (roundHalfEven (x * INV_PI_2_HIq + x * INV_PI_2_LOq))
        (x - (roundHalfEven (x * INV_PI_2_HIq + x * INV_PI_2_LOq) : ℚ) * PI2full) := by
  simp only [reducePi2, reduceCorrect, twoSum_eq, twoProd_eq, ddNorm_eq, ddSub_eq,
    ddAddPi2_eq, PI4_H_eq, PI4_L_eq, PI2full, add_zero, zero_add, sub_zero, neg_zero,
    lt_self_iff_false, and_false, or_false]
  ring_nf

theorem roundHalfEven_close (y : ℚ) : |y - (roundHalfEven y : ℚ)| ≤ 1 / 2 := by
  unfold roundHalfEven pytrunc
  rcases le_or_lt 0 y with hy | hy
  · have h1 : (⌊y⌋ : ℚ) ≤ y := Int.floor_le y
    have h2 : y < (⌊y⌋ : ℚ) + 1 := Int.lt_floor_add_one y
    simp only [hy, if_true, if_pos]
    split_ifs with hc
    · rcases hc with hgt | ⟨heq, _⟩ <;>
        · rw [abs_le]; push_cast; constructor <;> linarith
    · rw [not_or] at hc
      have : ¬ (1 / 2 < y - (⌊y⌋ : ℚ)) := fun h => hc.1 (by push_cast; linarith)
      rw [abs_le]; constructor <;> push_cast <;> linarith
  · have hy' : ¬ 0 ≤ y := not_le.mpr hy
    have h1 : y ≤ (⌈y⌉ : ℚ) := Int.le_ceil y
    have h2 : (⌈y⌉ : ℚ) - 1 < y := by
      have := Int.ceil_lt_add_one y; linarith
    simp only [hy', if_false]
    split_ifs with hc
    · rcases hc with hlt | ⟨heq, _⟩ <;>
        · rw [abs_le]; push_cast; constructor <;> linarith
    · rw [not_or] at hc
      have : ¬ (y - (⌈y⌉ : ℚ) < -(1 / 2)) := fun h => hc.1 (by push_cast; linarith)
      rw [abs_le]; constructor <;> push_cast <;> linarith

theorem pytrunc_abs_le (y : ℚ) : |(pytrunc y : ℚ)| ≤ |y| := by
  unfold pytrunc
  rcases le_or_lt 0 y with hy | hy
  · have h0 : (0 : ℚ) ≤ (⌊y⌋ : ℚ) := by exact_mod_cast Int.floor_nonneg.mpr hy
    rw [if_pos hy, abs_of_nonneg h0, abs_of_nonneg hy]
    exact Int.floor_le y
  · have h0 : (⌈y⌉ : ℚ) ≤ 0 := by
      have : ⌈y⌉ ≤ (0 : ℤ) := Int.ceil_le.mpr (by exact_mod_cast hy.le)
      exact_mod_cast this
    rw [if_neg (not_le.mpr hy), abs_of_nonpos h0, abs_of_neg hy]
    simp only [neg_le_neg_iff]
    exact Int.le_ceil y

theorem compDivVal_eq (n d : ℚ) (hd : d ≠ 0) : compDivVal n d = n / d := by
  unfold compDivVal
  simp only [twoProd_eq]
  field_simp

/-- Evaluation rule for `Int.log 2` on rationals, via the characterising
inequalities. -/
theorem intLog_eval {n : ℤ} {r : ℚ} (hr : 0 < r) (h1 : (2 : ℚ) ^ n ≤ r)
    (h2 : r < (2 : ℚ) ^ (n + 1)) : Int.log 2 r = n := by
  have hb : 1 < 2 := one_lt_two
  have hle : n ≤ Int.log 2 r := by
    refine (Int.zpow_le_iff_le_log hb hr).mp ?_
    exact_mod_cast h1
  have hlt : Int.log 2 r < n + 1 := by
    refine (Int.lt_zpow_iff_log_lt hb hr).mp ?_
    exact_mod_cast h2
  omega

theorem expReduce_zero : expReduce 0 = (0, 0) := by
  have htr : pytrunc (0 * INV_LN2q) = 0 := by
    simp [pytrunc]
  simp only [expReduce, htr, expGuard1, expGuard2]
  norm_num [LN2_HIq, LN2_LOq]

theorem expF_zero : expF (F.fin 0) = .ok (F.fin 1) := by
  show expFin 0 = .ok (F.fin 1)
  rw [expFin, expCore, expReduce_zero]
  norm_num [MAX_LOGq, MIN_LOGq, qdiv, Except.map]

/-- C3: exp's special cases and saturation: `exp(NaN) = NaN`,
`exp(+Inf) = +Inf`, `exp(-Inf) = 0.0`, `exp(0) == 1` exactly; every finite
input above the overflow threshold `MAX_LOG = 709.782712893384` saturates
to `+Inf`, and every finite input below the underflow threshold
`MIN_LOG = -745.1332191019411` saturates to `0.0`. -/
theorem C3_exp_specials_saturation :
    expF F.nan = .ok F.nan ∧ expF F.pinf = .ok F.pinf ∧
    expF F.ninf = .ok (F.fin 0) ∧ expF (F.fin 0) = .ok (F.fin 1) ∧
    (∀ q : ℚ, MAX_LOGq < q → expF (F.fin q) = .ok F.pinf) ∧
    (∀ q : ℚ, q < MIN_LOGq → expF (F.fin q) = .ok (F.fin 0)) := by
  refine ⟨rfl, rfl, rfl, expF_zero, ?_, ?_⟩
  · intro q h
    simp [expF, expFin, if_pos h]
  · intro q h
    have hlt : MIN_LOGq < MAX_LOGq := by norm_num [MIN_LOGq, MAX_LOGq]
    have h2 : ¬ MAX_LOGq < q := by linarith
    simp [expF, expFin, h, h2]

/-- Witness for C3 at the concrete saturating inputs `710` and `-746`. -/
theorem C3_witness :
    expF (F.fin 710) = .ok F.pinf ∧ expF (F.fin (-746)) = .ok (F.fin 0) :=
  ⟨C3_exp_specials_saturation.2.2.2.2.1 710 (by norm_num [MAX_LOGq]),
   C3_exp_specials_saturation.2.2.2.2.2 (-746) (by norm_num [MIN_LOGq])⟩

theorem expGuard2_bounds (k : ℤ) (r : ℚ) (h1 : -1075 ≤ k) (h2 : k ≤ 1024) :
    -1074 ≤ (expGuard2 k r).1 ∧ (expGuard2 k r).1 ≤ 1023 := by
  unfold expGuard2
  split_ifs <;> constructor <;> simp only <;> omega

theorem expGuard1_bounds (x : ℚ) (k0 : ℤ) (hx : x ≤ MAX_LOGq)
    (hk1 : -1074 ≤ k0) (hk2 : k0 ≤ 1024) :
    -1075 ≤ (expGuard1 k0 (x - k0 * LN2_HIq - k0 * LN2_LOq)).1 ∧
    (expGuard1 k0 (x - k0 * LN2_HIq - k0 * LN2_LOq)).1 ≤ 1024 := by
  unfold expGuard1
  dsimp only
  split_ifs with ha hb
  · refine ⟨by simp only; omega, ?_⟩
    simp only
    by_contra hcon
    have he : k0 = 1024 := by omega
    subst he
    push_cast at ha
    norm_num [MAX_LOGq, LN2_HIq, LN2_LOq] at ha hx
    linarith
  · exact ⟨by simp only; omega, by simp only; omega⟩
  · exact ⟨by simp only; omega, by simp only; omega⟩

/-- C6 (amended): for every finite non-saturating input
`MIN_LOG ≤ x ≤ MAX_LOG` the reduced exponent of exp stays in
`[-1074, 1023]`: it never reaches `+1024`, so `2.0 ** k` cannot
overflow.  (The original claim that `k` can never reach `-1024` is
false — see the counterexample — but a `k ≤ -1024` only makes `2**k`
underflow gradually, never overflow.) -/
theorem C6_exp_k_range (x : ℚ) (h1 : MIN_LOGq ≤ x) (h2 : x ≤ MAX_LOGq) :
    -1074 ≤ (expReduce x).1 ∧ (expReduce x).1 ≤ 1023 := by
  have hI : (0 : ℚ) < INV_LN2q := by norm_num [INV_LN2q]
  have hyub : x * INV_LN2q < 1025 := by
    have hle : x * INV_LN2q ≤ MAX_LOGq * INV_LN2q :=
      mul_le_mul_of_nonneg_right h2 hI.le
    have hnum : MAX_LOGq * INV_LN2q < 1025 := by norm_num [MAX_LOGq, INV_LN2q]
    linarith
  have hylb : (-1075 : ℚ) < x * INV_LN2q := by
    have hle : MIN_LOGq * INV_LN2q ≤ x * INV_LN2q :=
      mul_le_mul_of_nonneg_right h1 hI.le
    have hnum : (-1075 : ℚ) < MIN_LOGq * INV_LN2q := by norm_num [MIN_LOGq, INV_LN2q]
    linarith
  have hk0 : -1074 ≤ pytrunc (x * INV_LN2q) ∧ pytrunc (x * INV_LN2q) ≤ 1024 := by
    unfold pytrunc
    split_ifs with h0
    · constructor
      · have := Int.floor_nonneg.mpr h0
        omega
      · have hfl : (⌊x * INV_LN2q⌋ : ℚ) ≤ x * INV_LN2q := Int.floor_le _
        have hq : (⌊x * INV_LN2q⌋ : ℚ) < 1025 := by linarith
        have : ⌊x * INV_LN2q⌋ < (1025 : ℤ) := by exact_mod_cast hq
        omega
    · constructor
      · have hce : x * INV_LN2q ≤ (⌈x * INV_LN2q⌉ : ℚ) := Int.le_ceil _
        have hq : (-1075 : ℚ) < (⌈x * INV_LN2q⌉ : ℚ) := by linarith
        have : (-1075 : ℤ) < ⌈x * INV_LN2q⌉ := by exact_mod_cast hq
        omega
      · have : ⌈x * INV_LN2q⌉ ≤ (0 : ℤ) :=
          Int.ceil_le.mpr (by push_cast; linarith [not_le.mp h0])
        omega
  have hg1 := expGuard1_bounds x (pytrunc (x * INV_LN2q)) h2 hk0.1 hk0.2
  exact expGuard2_bounds _ _ hg1.1 hg1.2

/-- Witness for C6 at the in-range input `0`. -/
theorem C6_witness : -1074 ≤ (expReduce 0).1 ∧ (expReduce 0).1 ≤ 1023 :=
  C6_exp_k_range 0 (by norm_num [MIN_LOGq]) (by norm_num [MAX_LOGq])

/-- C6 counterexample: at `x = -710.25` (inside `[MIN_LOG, MAX_LOG]`) the
reduced exponent `k` of exp's range reduction is exactly `-1024`: the
second guard maps `k = -1025` to `-1024` instead of keeping `k` away from
`-1024`. -/
theorem C6_counterexample :
    MIN_LOGq ≤ -2841 / 4 ∧ (-2841 / 4 : ℚ) ≤ MAX_LOGq ∧
    (expReduce (-2841 / 4)).1 = -1024 := by
  refine ⟨by norm_num [MIN_LOGq], by norm_num [MAX_LOGq], ?_⟩
  have hk0 : pytrunc ((-2841 / 4 : ℚ) * INV_LN2q) = -1024 := by
    rw [pytrunc, if_neg (by norm_num [INV_LN2q])]
    rw [Int.ceil_eq_iff]
    constructor <;> norm_num [INV_LN2q]
  simp only [expReduce, hk0, expGuard1, expGuard2]
  norm_num [LN2_HIq, LN2_LOq]

theorem roundHalfEven_eq_zero {y : ℚ} (h0 : 0 ≤ y) (h1 : y < 1 / 2) :
    roundHalfEven y = 0 := by
  have hfl : pytrunc y = 0 := by
    rw [pytrunc, if_pos h0, Int.floor_eq_iff]
    constructor <;> push_cast <;> linarith
  unfold roundHalfEven
  dsimp only
  rw [hfl, if_pos h0, if_neg]
  push_cast
  rintro (h | ⟨h, -⟩) <;> linarith

theorem roundHalfEven_eq_one {y : ℚ} (h1 : 1 / 2 < y) (h2 : y < 1) :
    roundHalfEven y = 1 := by
  have h0 : (0 : ℚ) ≤ y := by linarith
  have hfl : pytrunc y = 0 := by
    rw [pytrunc, if_pos h0, Int.floor_eq_iff]
    constructor <;> push_cast <;> linarith
  unfold roundHalfEven
  dsimp only
  rw [hfl, if_pos h0, if_pos]
  · norm_num
  · left
    push_cast
    linarith

theorem rhe_pole :
    roundHalfEven (PI2full * INV_PI_2_HIq + PI2full * INV_PI_2_LOq) = 1 :=
  roundHalfEven_eq_one
    (by norm_num [PI2full, PI2_HIq, PI2_MIDq, PI2_LOq, INV_PI_2_HIq, INV_PI_2_LOq])
    (by norm_num [PI2full, PI2_HIq, PI2_MIDq, PI2_LOq, INV_PI_2_HIq, INV_PI_2_LOq])

theorem reduce_at_pole : reducePi2 PI2full = (1, 0, 0) := by
  rw [reducePi2_cooked, rhe_pole, reduceCorrect]
  push_cast
  norm_num [PI2full, PI2_HIq, PI2_MIDq, PI2_LOq]

theorem sinCosDd_zero : sinCosDd 0 0 = (0, 1) := by
  unfold sinCosDd sinKernel cosKernel
  norm_num

/-- C4 counterexample: at the model input `x = PI2_HI + PI2_MID + PI2_LO`
(the code's `π/2`) the reduction lands in quadrant 1 with remainder
exactly zero, so tan's denominator `s` is exactly zero — and tan raises
ZeroDivisionError instead of returning NaN. -/
theorem C4_counterexample :
    tanF (F.fin PI2full) = .error .zeroDiv ∧ tanF (F.fin PI2full) ≠ .ok F.nan := by
  have h : tanF (F.fin PI2full) = .error .zeroDiv := by
    show (tanQ PI2full).map F.fin = .error .zeroDiv
    unfold tanQ
    rw [reduce_at_pole]
    dsimp only
    rw [sinCosDd_zero]
    norm_num [compDiv, Except.map]
  exact ⟨h, by simp [h]⟩

/-- C4 (amended): sin and cos are total and raise nothing; all three trig
entry points map non-finite inputs to NaN; tan's only failure source is
the compensated quotient, which raises ZeroDivisionError exactly on an
exactly-zero denominator and returns the plain quotient otherwise. -/
theorem C4_trig_error_handling :
    (∀ x : F, x.isFinite = false →
      sinF x = F.nan ∧ cosF x = F.nan ∧ tanF x = .ok F.nan) ∧
    (∀ n : ℚ, compDiv n 0 = .error .zeroDiv) ∧
    (∀ n d : ℚ, d ≠ 0 → compDiv n d = .ok (n / d)) := by
  refine ⟨?_, ?_, ?_⟩
  · intro x hx
    refine ⟨?_, ?_, ?_⟩ <;> simp [sinF, cosF, tanF, hx]
  · intro n
    simp [compDiv]
  · intro n d hd
    simp [compDiv, hd, compDivVal_eq n d hd]

/-- Witness for C4 at NaN and at concrete quotients. -/
theorem C4_witness :
    (sinF F.nan = F.nan ∧ cosF F.nan = F.nan ∧ tanF F.nan = .ok F.nan) ∧
    compDiv 1 0 = .error .zeroDiv ∧ compDiv 1 2 = .ok (1 / 2) :=
  ⟨C4_trig_error_handling.1 F.nan rfl, C4_trig_error_handling.2.1 1,
   C4_trig_error_handling.2.2 1 2 (by norm_num)⟩

theorem rhe_small :
    roundHalfEven ((1 / 2 ^ 41) * INV_PI_2_HIq + (1 / 2 ^ 41) * INV_PI_2_LOq) = 0 :=
  roundHalfEven_eq_zero
    (by norm_num [INV_PI_2_HIq, INV_PI_2_LOq])
    (by norm_num [INV_PI_2_HIq, INV_PI_2_LOq])

theorem reduce_small : reducePi2 (1 / 2 ^ 41) = (0, 1 / 2 ^ 41, 0) := by
  rw [reducePi2_cooked, rhe_small, reduceCorrect]
  push_cast
  norm_num [PI2full, PI2_HIq, PI2_MIDq, PI2_LOq]

/-- C5 (amended): whenever the reduced remainder `r_sum = r_hi + r_lo`
is smaller than `2^-40` in magnitude, `sin` and `cos` bypass the
polynomial kernels and return the quadrant combination of the first-order
approximations `s = r_sum` and `c = 1.0` — that is, `±r_sum` or `±1.0`
depending on the quadrant (not always one of `{0.0, 1.0, -1.0}`). -/
theorem C5_sticky_branch (x : ℚ)
    (h1 : -STICKYq < (reducePi2 x).2.1 + (reducePi2 x).2.2)
    (h2 : (reducePi2 x).2.1 + (reducePi2 x).2.2 < STICKYq) :
    sinF (F.fin x) =
      F.fin (if (reducePi2 x).1 = 0 then (reducePi2 x).2.1 + (reducePi2 x).2.2
        else if (reducePi2 x).1 = 1 then 1
        else if (reducePi2 x).1 = 2 then -((reducePi2 x).2.1 + (reducePi2 x).2.2)
        else -1) ∧
    cosF (F.fin x) =
      F.fin (if (reducePi2 x).1 = 0 then 1
        else if (reducePi2 x).1 = 1 then -((reducePi2 x).2.1 + (reducePi2 x).2.2)
        else if (reducePi2 x).1 = 2 then -1
        else (reducePi2 x).2.1 + (reducePi2 x).2.2) := by
  constructor
  · show F.fin (sinQ x) = _
    unfold sinQ
    dsimp only
    rw [if_pos ⟨h1, h2⟩]
  · show F.fin (cosQ x) = _
    unfold cosQ
    dsimp only
    rw [if_pos ⟨h1, h2⟩]

/-- Witness for C5 at `x = 2^-41`, whose reduced remainder is `2^-41`. -/
theorem C5_witness :
    sinF (F.fin (1 / 2 ^ 41)) =
      F.fin (if (reducePi2 (1 / 2 ^ 41)).1 = 0 then
          (reducePi2 (1 / 2 ^ 41)).2.1 + (reducePi2 (1 / 2 ^ 41)).2.2
        else if (reducePi2 (1 / 2 ^ 41)).1 = 1 then 1
        else if (reducePi2 (1 / 2 ^ 41)).1 = 2 then
          -((reducePi2 (1 / 2 ^ 41)).2.1 + (reducePi2 (1 / 2 ^ 41)).2.2)
        else -1) ∧
    cosF (F.fin (1 / 2 ^ 41)) =
      F.fin (if (reducePi2 (1 / 2 ^ 41)).1 = 0 then 1
        else if (reducePi2 (1 / 2 ^ 41)).1 = 1 then
          -((reducePi2 (1 / 2 ^ 41)).2.1 + (reducePi2 (1 / 2 ^ 41)).2.2)
        else if (reducePi2 (1 / 2 ^ 41)).1 = 2 then -1
        else (reducePi2 (1 / 2 ^ 41)).2.1 + (reducePi2 (1 / 2 ^ 41)).2.2) :=
  C5_sticky_branch (1 / 2 ^ 41)
    (by rw [reduce_small]; norm_num [STICKYq])
    (by rw [reduce_small]; norm_num [STICKYq])

/-- C5 counterexample: `x = 2^-41` has reduced remainder `2^-41 < 2^-40`,
yet `sin(x)` evaluates to `2^-41`, which is none of `0.0`, `1.0`, `-1.0`:
the sticky rule does not snap the sine value to zero. -/
theorem C5_counterexample :
    (-STICKYq < (reducePi2 (1 / 2 ^ 41)).2.1 + (reducePi2 (1 / 2 ^ 41)).2.2 ∧
      (reducePi2 (1 / 2 ^ 41)).2.1 + (reducePi2 (1 / 2 ^ 41)).2.2 < STICKYq) ∧
    sinF (F.fin (1 / 2 ^ 41)) = F.fin (1 / 2 ^ 41) ∧
    sinF (F.fin (1 / 2 ^ 41)) ≠ F.fin 0 ∧
    sinF (F.fin (1 / 2 ^ 41)) ≠ F.fin 1 ∧
    sinF (F.fin (1 / 2 ^ 41)) ≠ F.fin (-1) := by
  have hs : sinF (F.fin (1 / 2 ^ 41)) = F.fin (1 / 2 ^ 41) := by
    show F.fin (sinQ (1 / 2 ^ 41)) = _
    unfold sinQ
    rw [reduce_small]
    norm_num [STICKYq]
  refine ⟨⟨?_, ?_⟩, hs, ?_, ?_, ?_⟩
  · rw [reduce_small]
    norm_num [STICKYq]
  · rw [reduce_small]
    norm_num [STICKYq]
  · rw [hs]
    simp only [ne_eq, F.fin.injEq]
    norm_num
  · rw [hs]
    simp only [ne_eq, F.fin.injEq]
    norm_num
  · rw [hs]
    simp only [ne_eq, F.fin.injEq]
    norm_num

/-- C1: log's special handling as implemented: `log(NaN) = NaN`,
`log(+Inf) = +Inf`, and DomainError (InvalidValueError) for every
`x < 0` — but also for `x == 0.0` exactly: the code's `x <= 0.0` test
raises instead of returning `-Inf`, contradicting both the spec and
log's own docstring (`x == 0.0 -> -inf`). -/
theorem C1_log_specials :
    logF F.nan = .ok F.nan ∧ logF F.pinf = .ok F.pinf ∧
    (∀ q : ℚ, q < 0 → logF (F.fin q) = .error .invalidValue) ∧
    logF F.ninf = .error .invalidValue ∧
    logF (F.fin 0) = .error .invalidValue := by
  refine ⟨?_, ?_, ?_, ?_, ?_⟩
  · simp [logF, F.eqb, F.key]
  · simp [logF, F.eqb, F.key]
  · intro q hq
    simp [logF, F.eqb, F.key, F.leb, F.ltb, hq]
  · simp [logF, F.eqb, F.key, F.leb, F.ltb]
  · simp [logF, F.eqb, F.key, F.leb, F.ltb, -Prod.mk_zero_zero]

/-- Witness for C1 at the concrete negative input `-1`. -/
theorem C1_witness : logF (F.fin (-1)) = .error .invalidValue :=
  C1_log_specials.2.2.1 (-1) (by norm_num)

theorem sqrtLoop_ok (x tol : ℚ) (hx : 0 < x) :
    ∀ (fuel : ℕ) (y : ℚ), 0 < y → ∃ v, sqrtLoop x tol y fuel = .ok v := by
  intro fuel
  induction fuel with
  | zero => exact fun y _ => ⟨y, rfl⟩
  | succ n ih =>
    intro y hy
    have hdiv : qdiv x y = .ok (x / y) := by simp [qdiv, ne_of_gt hy]
    have hy2 : 0 < 1 / 2 * (y + x / y) := by positivity
    unfold sqrtLoop
    rw [hdiv]
    dsimp only
    split_ifs with hacc
    · exact ⟨_, rfl⟩
    · exact ih _ hy2

theorem sqrtSeed_pos (q : ℚ) : 0 < sqrtSeed q := by
  unfold sqrtSeed
  dsimp only
  split_ifs with h0 h1 h2
  all_goals first
    | exact zpow_pos (by norm_num) _
    | norm_num

/-- C8: newton_sqrt's special cases NaN→NaN, negative→NaN, 0→0,
+Inf→+Inf, and totality on the valid domain: every positive finite input
produces a value (on budget exhaustion the loop returns its last
estimate, `sqrtLoop x tol y 0 = ok y`, rather than signalling failure). -/
theorem C8_newton_sqrt :
    newtonSqrtF F.nan = .ok F.nan ∧
    (∀ q : ℚ, q < 0 → newtonSqrtF (F.fin q) = .ok F.nan) ∧
    newtonSqrtF F.ninf = .ok F.nan ∧
    newtonSqrtF (F.fin 0) = .ok (F.fin 0) ∧
    newtonSqrtF F.mzero = .ok (F.fin 0) ∧
    newtonSqrtF F.pinf = .ok F.pinf ∧
    (∀ q : ℚ, 0 < q → ∃ v, newtonSqrtF (F.fin q) = .ok (F.fin v)) ∧
    (∀ x tol y : ℚ, sqrtLoop x tol y 0 = .ok y) := by
  refine ⟨?_, ?_, ?_, ?_, ?_, ?_, ?_, ?_⟩
  · simp [newtonSqrtF, F.eqb, F.key]
  · intro q hq
    simp [newtonSqrtF, F.eqb, F.key, F.ltb, hq]
  · simp [newtonSqrtF, F.eqb, F.key, F.ltb]
  · simp [newtonSqrtF, F.eqb, F.key, F.ltb]
  · simp [newtonSqrtF, F.eqb, F.key, F.ltb]
  · simp [newtonSqrtF, F.eqb, F.key, F.ltb]
  · intro q hq
    obtain ⟨v, hv⟩ := sqrtLoop_ok q TOL15q hq 100 (sqrtSeed q) (sqrtSeed_pos q)
    refine ⟨v, ?_⟩
    have hne : q ≠ 0 := ne_of_gt hq
    simp [newtonSqrtF, F.eqb, F.key, F.ltb, hne, not_lt.mpr hq.le, hv, Except.map]
  · intro x tol y
    rfl

/-- Witness for C8 at the concrete inputs `-1` and `2`. -/
theorem C8_witness :
    newtonSqrtF (F.fin (-1)) = .ok F.nan ∧
    (∃ v, newtonSqrtF (F.fin 2) = .ok (F.fin v)) :=
  ⟨C8_newton_sqrt.2.1 (-1) (by norm_num),
   C8_newton_sqrt.2.2.2.2.2.2.1 2 (by norm_num)⟩

theorem hyperIsFinite_eq (x : F) : hyperIsFinite x = isfinite_f x := rfl

/-- C9: every hyperbolic function returns NaN for every non-finite input,
and the inverse-function domain checks return NaN without raising:
`acosh(x) = NaN` for `x < 1` and `atanh(x) = NaN` for `|x| >= 1`. -/
theorem C9_hyper_nonfinite_domain :
    (∀ x : F, isfinite_f x = false →
      sinhF x = .ok F.nan ∧ coshF x = .ok F.nan ∧ tanhF x = .ok F.nan ∧
      asinhF x = .ok F.nan ∧ acoshF x = .ok F.nan ∧ atanhF x = .ok F.nan) ∧
    (∀ q : ℚ, q < 1 → acoshF (F.fin q) = .ok F.nan) ∧
    (∀ q : ℚ, 1 ≤ |q| → atanhF (F.fin q) = .ok F.nan) := by
  refine ⟨?_, ?_, ?_⟩
  · intro x hx
    have hx2 : hyperIsFinite x = false := by rw [hyperIsFinite_eq, hx]
    refine ⟨?_, ?_, ?_, ?_, ?_, ?_⟩ <;>
      simp [sinhF, coshF, tanhF, asinhF, acoshF, atanhF, hx, hx2, NANc]
  · intro q hq
    have hfin : isfinite_f (F.fin q) = true := by
      simp [isfinite_f, F.eqb, F.key, F.ltb, INFc, F.fneg]
    simp [acoshF, hfin, F.ltb, F.key, hq, NANc]
  · intro q hq
    have hfin : isfinite_f (F.fin q) = true := by
      simp [isfinite_f, F.eqb, F.key, F.ltb, INFc, F.fneg]
    have hdom : ((F.fin (-1)).ltb (F.fin q) && (F.fin q).ltb (F.fin 1)) = false := by
      rcases le_or_lt 1 q with hc | hc
      · simp [F.ltb, F.key, not_lt.mpr hc]
      · have hneg : ¬ ((-1 : ℚ) < q) := by
          intro hgt
          rcases abs_cases q with ⟨he, -⟩ | ⟨he, -⟩ <;> rw [he] at hq <;> linarith
        simp [F.ltb, F.key, hneg]
    simp [atanhF, hfin, hdom, NANc]

/-- Witness for C9 at NaN, `acosh(0)` and `atanh(2)`. -/
theorem C9_witness :
    (sinhF F.nan = .ok F.nan ∧ coshF F.nan = .ok F.nan ∧
     tanhF F.nan = .ok F.nan ∧ asinhF F.nan = .ok F.nan ∧
     acoshF F.nan = .ok F.nan ∧ atanhF F.nan = .ok F.nan) ∧
    acoshF (F.fin 0) = .ok F.nan ∧ atanhF (F.fin 2) = .ok F.nan :=
  ⟨C9_hyper_nonfinite_domain.1 F.nan rfl,
   C9_hyper_nonfinite_domain.2.1 0 (by norm_num),
   C9_hyper_nonfinite_domain.2.2 2 (by norm_num)⟩

theorem powLoop_eq (n : ℕ) : ∀ base scale : ℚ, powLoop base scale n = scale * base ^ n := by
  induction n using Nat.strong_induction_on with
  | _ n ih =>
    intro base scale
    unfold powLoop
    by_cases h : n = 0
    · rw [dif_pos h, h]
      simp
    · rw [dif_neg h, ih (n / 2) (Nat.div_lt_self (Nat.pos_of_ne_zero h) one_lt_two)]
      rcases Nat.mod_two_eq_zero_or_one n with h2 | h2
      · rw [if_neg (by omega : ¬ n % 2 = 1), mul_pow, ← pow_add]
        have hpw : base ^ n = base ^ (n / 2 + n / 2) := by
          congr 1
          omega
        rw [hpw]
      · rw [if_pos h2, mul_pow, ← pow_add]
        have hpw : base ^ n = base ^ (n / 2 + n / 2) * base := by
          rw [← pow_succ]
          congr 1
          omega
        rw [hpw]
        ring

theorem ldexp_fin (q : ℚ) (hq : q ≠ 0) (e : ℤ) :
    ldexpF (F.fin q) e = F.fin (q * (2 : ℚ) ^ e) := by
  show ldexpFin q e = _
  unfold ldexpFin
  rw [if_neg hq]
  dsimp only
  rcases le_or_lt 0 e with he | he
  · rw [if_pos he, powLoop_eq, one_mul]
    have hcast : ((e.natAbs : ℤ)) = e := Int.natAbs_of_nonneg he
    rw [← zpow_natCast, hcast]
  · rw [if_neg (not_le.mpr he), powLoop_eq, one_mul]
    have hcast : -((e.natAbs : ℤ)) = e := by omega
    rw [one_div, inv_pow, ← zpow_natCast, ← zpow_neg, hcast]

/-- C10: round trip of the bit-decomposition utilities: for every finite
non-zero `x`, `frexp(x) = (m, e)` with `0.5 ≤ |m| < 1` and
`ldexp(m, e) == x` exactly; `frexp` maps `±0.0` to `(±0.0, 0)`, `±Inf`
to `(±Inf, 0)` and NaN to `(NaN, 0)`; `ldexp` propagates NaN/Inf and
preserves signed zero for any exponent. -/
theorem C10_frexp_ldexp :
    (∀ q : ℚ, q ≠ 0 →
      1 / 2 ≤ |(frexpF (F.fin q)).1.toQ| ∧ |(frexpF (F.fin q)).1.toQ| < 1 ∧
      ldexpF (frexpF (F.fin q)).1 (frexpF (F.fin q)).2 = F.fin q) ∧
    frexpF (F.fin 0) = (F.fin 0, 0) ∧ frexpF F.mzero = (F.mzero, 0) ∧
    frexpF F.pinf = (F.pinf, 0) ∧ frexpF F.ninf = (F.ninf, 0) ∧
    frexpF F.nan = (F.nan, 0) ∧
    (∀ e : ℤ, ldexpF F.nan e = F.nan ∧ ldexpF F.pinf e = F.pinf ∧
      ldexpF F.ninf e = F.ninf ∧ ldexpF F.mzero e = F.mzero ∧
      ldexpF (F.fin 0) e = F.fin 0) := by
  refine ⟨?_, by simp [frexpF], rfl, rfl, rfl, rfl,
    fun e => ⟨rfl, rfl, rfl, rfl, by simp [ldexpF, ldexpFin]⟩⟩
  intro q hq
  have habs : 0 < |q| := abs_pos.mpr hq
  have hE : frexpF (F.fin q) = frexpFin q := by simp [frexpF, hq]
  have hlow : (2 : ℚ) ^ Int.log 2 |q| ≤ |q| := by
    have := Int.zpow_log_le_self (b := 2) (R := ℚ) one_lt_two habs
    exact_mod_cast this
  have hhigh : |q| < (2 : ℚ) ^ (Int.log 2 |q| + 1) := by
    have := Int.lt_zpow_succ_log_self (b := 2) (R := ℚ) one_lt_two |q|
    exact_mod_cast this
  have hpow : (0 : ℚ) < (2 : ℚ) ^ (Int.log 2 |q| + 1) := zpow_pos (by norm_num) _
  have hm : (frexpFin q).1.toQ = q / 2 ^ (Int.log 2 |q| + 1) := rfl
  have hmabs : |(frexpFin q).1.toQ| = |q| / 2 ^ (Int.log 2 |q| + 1) := by
    rw [hm, abs_div, abs_of_pos hpow]
  refine ⟨?_, ?_, ?_⟩
  · rw [hE, hmabs]
    rw [le_div_iff₀ hpow]
    have h2 : (1 / 2 : ℚ) * 2 ^ (Int.log 2 |q| + 1) = 2 ^ Int.log 2 |q| := by
      rw [zpow_add_one₀ (by norm_num : (2:ℚ) ≠ 0)]
      ring
    rw [h2]
    exact hlow
  · rw [hE, hmabs]
    rw [div_lt_one hpow]
    exact hhigh
  · rw [hE]
    have hmne : q / (2 : ℚ) ^ (Int.log 2 |q| + 1) ≠ 0 :=
      div_ne_zero hq (ne_of_gt hpow)
    show ldexpF (F.fin (q / 2 ^ (Int.log 2 |q| + 1))) (Int.log 2 |q| + 1) = F.fin q
    rw [ldexp_fin _ hmne]
    congr 1
    field_simp

/-- Witness for C10 at the concrete input `3`. -/
theorem C10_witness :
    1 / 2 ≤ |(frexpF (F.fin 3)).1.toQ| ∧ |(frexpF (F.fin 3)).1.toQ| < 1 ∧
    ldexpF (frexpF (F.fin 3)).1 (frexpF (F.fin 3)).2 = F.fin 3 :=
  C10_frexp_ldexp.1 3 (by norm_num)

theorem fdivE_ok (a b : F) (hb : b.eqb (F.fin 0) = false) :
    ∃ w, F.fdivE a b = .ok w := by
  cases b with
  | nan => cases a <;> exact ⟨_, rfl⟩
  | pinf => cases a <;> exact ⟨_, rfl⟩
  | ninf => cases a <;> exact ⟨_, rfl⟩
  | mzero => simp [F.eqb, F.key] at hb
  | fin q =>
    have hq : ¬ q = 0 := by
      intro h
      subst h
      simp [F.eqb, F.key] at hb
    cases a with
    | nan => exact ⟨F.nan, by simp [F.fdivE, hq]⟩
    | pinf => exact ⟨if 0 < q then F.pinf else F.ninf, by simp only [F.fdivE, if_neg hq]⟩
    | ninf => exact ⟨if 0 < q then F.ninf else F.pinf, by simp only [F.fdivE, if_neg hq]⟩
    | mzero => exact ⟨F.fin 0, by simp [F.fdivE, hq]⟩
    | fin p => exact ⟨F.fin (p / q), by simp [F.fdivE, hq]⟩

theorem newtonLoop_spec (f : F → Except Err F) (fp : Option (F → Except Err F))
    (tol fdEps : F) (maxIter : ℕ)
    (hf : ∀ y, ∃ v, f y = .ok v)
    (hd : ∀ x fx, ∃ v, newtonDeriv f fp fdEps x fx = .ok v) :
    ∀ (fuel i : ℕ) (x : F), maxIter - i = fuel → i ≤ maxIter →
      (∀ v, newtonLoop f fp tol fdEps maxIter i x = .ok v →
        ∃ xp dx, v = F.fadd xp dx ∧
          (F.fabs dx).leb (F.fmul tol (F.pymax (F.fin 1) (F.fabs v))) = true) ∧
      (∀ e, newtonLoop f fp tol fdEps maxIter i x = .error e →
        (∃ j xp fxp dfxp, j < maxIter ∧ e = .convergence j fxp tol ∧
          f xp = .ok fxp ∧ newtonDeriv f fp fdEps xp fxp = .ok dfxp ∧
          dfxp.eqb (F.fin 0) = true) ∨
        (∃ xl vl, f xl = .ok vl ∧ e = .convergence maxIter (F.fabs vl) tol)) := by
  intro fuel
  induction fuel with
  | zero =>
    intro i x hfuel hi
    have hieq : ¬ i < maxIter := by omega
    obtain ⟨fv, hfv⟩ := hf x
    constructor
    · intro v hv
      unfold newtonLoop at hv
      rw [dif_neg hieq, hfv] at hv
      dsimp only at hv
      cases hv
    · intro e he
      unfold newtonLoop at he
      rw [dif_neg hieq, hfv] at he
      dsimp only at he
      right
      refine ⟨x, fv, hfv, ?_⟩
      injection he with he2
      exact he2.symm
  | succ n ih =>
    intro i x hfuel hi
    have hlt : i < maxIter := by omega
    obtain ⟨fx, hfx⟩ := hf x
    obtain ⟨dfx, hdfx⟩ := hd x fx
    by_cases hz : dfx.eqb (F.fin 0) = true
    · constructor
      · intro v hv
        unfold newtonLoop at hv
        rw [dif_pos hlt, hfx] at hv
        dsimp only at hv
        rw [hdfx] at hv
        dsimp only at hv
        rw [if_pos hz] at hv
        cases hv
      · intro e he
        unfold newtonLoop at he
        rw [dif_pos hlt, hfx] at he
        dsimp only at he
        rw [hdfx] at he
        dsimp only at he
        rw [if_pos hz] at he
        injection he with he2
        left
        exact ⟨i, x, fx, dfx, hlt, he2.symm, hfx, hdfx, hz⟩
    · have hz2 : dfx.eqb (F.fin 0) = false := by
        revert hz
        cases dfx.eqb (F.fin 0) <;> simp
      obtain ⟨dx, hdx⟩ := fdivE_ok (F.fneg fx) dfx hz2
      by_cases hacc :
          (F.fabs dx).leb (F.fmul tol (F.pymax (F.fin 1) (F.fabs (F.fadd x dx)))) = true
      · constructor
        · intro v hv
          unfold newtonLoop at hv
          rw [dif_pos hlt, hfx] at hv
          dsimp only at hv
          rw [hdfx] at hv
          dsimp only at hv
          rw [if_neg hz, hdx] at hv
          dsimp only at hv
          rw [if_pos hacc] at hv
          injection hv with hv2
          subst hv2
          exact ⟨x, dx, rfl, hacc⟩
        · intro e he
          unfold newtonLoop at he
          rw [dif_pos hlt, hfx] at he
          dsimp only at he
          rw [hdfx] at he
          dsimp only at he
          rw [if_neg hz, hdx] at he
          dsimp only at he
          rw [if_pos hacc] at he
          cases he
      · have hstep :
            newtonLoop f fp tol fdEps maxIter i x =
              newtonLoop f fp tol fdEps maxIter (i + 1) (F.fadd x dx) := by
          conv_lhs => unfold newtonLoop
          rw [dif_pos hlt, hfx]
          dsimp only
          rw [hdfx]
          dsimp only
          rw [if_neg hz, hdx]
          dsimp only
          rw [if_neg hacc]
        rw [hstep]
        exact ih (i + 1) (F.fadd x dx) (by omega) (by omega)

/-- C7: the generic Newton-Raphson root finder accepts the iterate
`x_new = x + dx` as converged exactly under the test
`|dx| <= tol * max(1, |x_new|)`, and fails only with a ConvergenceError,
in exactly two situations: the derivative evaluated to exactly zero at
the current point (error payload: the iteration count `j < max_iter`,
the last residual `f(x_j)` and the target tolerance), or the iteration
budget was exhausted (payload: `max_iter`, `|f(x_last)|` and the target
tolerance).  The hypotheses say that the supplied callables themselves
never raise. -/
theorem C7_newton_characterization (f : F → Except Err F)
    (fp : Option (F → Except Err F)) (x0 tol fdEps : F) (maxIter : ℕ)
    (hf : ∀ y, ∃ v, f y = .ok v)
    (hd : ∀ x fx, ∃ v, newtonDeriv f fp fdEps x fx = .ok v) :
    (∀ v, newton f fp x0 tol maxIter fdEps = .ok v →
      ∃ xp dx, v = F.fadd xp dx ∧
        (F.fabs dx).leb (F.fmul tol (F.pymax (F.fin 1) (F.fabs v))) = true) ∧
    (∀ e, newton f fp x0 tol maxIter fdEps = .error e →
      (∃ j xp fxp dfxp, j < maxIter ∧ e = .convergence j fxp tol ∧
        f xp = .ok fxp ∧ newtonDeriv f fp fdEps xp fxp = .ok dfxp ∧
        dfxp.eqb (F.fin 0) = true) ∨
      (∃ xl vl, f xl = .ok vl ∧ e = .convergence maxIter (F.fabs vl) tol)) :=
  newtonLoop_spec f fp tol fdEps maxIter hf hd (maxIter - 0) 0 x0 rfl (Nat.zero_le _)

/-- Witness for C7: the identity function with constant derivative 1,
started at 0 with tolerance 1 and budget 5. -/
theorem C7_witness :
    (∀ v, newton (fun y => .ok y) (some fun _ => .ok (F.fin 1)) (F.fin 0) (F.fin 1) 5
        (F.fin EPS8q) = .ok v →
      ∃ xp dx, v = F.fadd xp dx ∧
        (F.fabs dx).leb (F.fmul (F.fin 1) (F.pymax (F.fin 1) (F.fabs v))) = true) ∧
    (∀ e, newton (fun y => .ok y) (some fun _ => .ok (F.fin 1)) (F.fin 0) (F.fin 1) 5
        (F.fin EPS8q) = .error e →
      (∃ j xp fxp dfxp, j < 5 ∧ e = .convergence j fxp (F.fin 1) ∧
        (Except.ok xp : Except Err F) = .ok fxp ∧
        newtonDeriv (fun y => .ok y) (some fun _ => .ok (F.fin 1)) (F.fin EPS8q) xp fxp =
          .ok dfxp ∧ dfxp.eqb (F.fin 0) = true) ∨
      (∃ xl vl, (Except.ok xl : Except Err F) = .ok vl ∧
        e = .convergence 5 (F.fabs vl) (F.fin 1))) :=
  C7_newton_characterization (fun y => .ok y) (some fun _ => .ok (F.fin 1)) (F.fin 0)
    (F.fin 1) (F.fin EPS8q) 5 (fun y => ⟨y, rfl⟩) (fun _ _ => ⟨F.fin 1, rfl⟩)

theorem roundHalfEven_eq_of_lt {y : ℚ} {n : ℤ} (h0 : 0 ≤ y) (h1 : (n : ℚ) ≤ y)
    (h2 : y < (n : ℚ) + 1 / 2) : roundHalfEven y = n := by
  have hfl : pytrunc y = n := by
    rw [pytrunc, if_pos h0, Int.floor_eq_iff]
    exact ⟨h1, by push_cast; linarith⟩
  unfold roundHalfEven
  dsimp only
  rw [hfl, if_pos h0, if_neg]
  rintro (h | ⟨h, -⟩) <;> linarith

theorem reduceCorrect_q (k : ℤ) (r : ℚ) :
    0 ≤ (reduceCorrect k r).1 ∧ (reduceCorrect k r).1 < 4 := by
  unfold reduceCorrect
  split_ifs <;> constructor <;> simp only <;>
    first
      | exact Int.emod_nonneg _ (by norm_num)
      | exact Int.emod_lt_of_pos _ (by norm_num)

theorem reduceCorrect_r_bound (k : ℤ) (r : ℚ)
    (hr : |r| ≤ PI2full / 2 + 1 / 10 ^ 9) :
    |(reduceCorrect k r).2.1 + (reduceCorrect k r).2.2| ≤ PI2full / 2 := by
  have hP : (3 / 2 : ℚ) ≤ PI2full := by
    norm_num [PI2full, PI2_HIq, PI2_MIDq, PI2_LOq]
  obtain ⟨hr1, hr2⟩ := abs_le.mp hr
  unfold reduceCorrect
  split_ifs with c1 c2 c3 c4
  · exfalso
    linarith
  · simp only [add_zero]
    rw [abs_le]
    constructor <;> linarith
  · exfalso
    linarith
  · simp only [add_zero]
    rw [abs_le]
    constructor <;> linarith
  · simp only [add_zero]
    rw [abs_le]
    constructor <;> linarith

/-- C2 (amended): the trigonometric range reduction always returns a
quadrant `q ∈ {0,1,2,3}`, and for every finite input of magnitude at
most `2^20` (comfortably covering the spec's `10^6` requirement) the
remainder `r_hi + r_lo` is confined to `[-π/4, π/4]`.  For very large
finite inputs the confinement fails — see the counterexample — because
the constants `PI2_MID`, `PI2_LO`, `INV_PI_2_LO` are decimal-split
rather than binary-split, so `k·(π/2 - (PI2_HI+PI2_MID+PI2_LO))` grows
with `k` and the two post-corrections cannot recover. -/
theorem C2_reduction (x : ℚ) :
    (0 ≤ (reducePi2 x).1 ∧ (reducePi2 x).1 < 4) ∧
    (|x| ≤ 2 ^ 20 →
      |((reducePi2 x).2.1 : ℝ) + ((reducePi2 x).2.2 : ℝ)| ≤ Real.pi / 4) := by
  constructor
  · rw [reducePi2_cooked]
    exact reduceCorrect_q _ _
  · intro hx
    rw [reducePi2_cooked]
    have hIpos : (0 : ℚ) < INV_PI_2_HIq + INV_PI_2_LOq := by
      norm_num [INV_PI_2_HIq, INV_PI_2_LOq]
    set y := x * INV_PI_2_HIq + x * INV_PI_2_LOq with hy
    set k := roundHalfEven y with hk
    have hyabs : |y| ≤ 2 ^ 20 * (INV_PI_2_HIq + INV_PI_2_LOq) := by
      have hxy : y = x * (INV_PI_2_HIq + INV_PI_2_LOq) := by rw [hy]; ring
      rw [hxy, abs_mul, abs_of_pos hIpos]
      exact mul_le_mul_of_nonneg_right hx hIpos.le
    have hclose : |y - (k : ℚ)| ≤ 1 / 2 := roundHalfEven_close y
    have hkabs : |(k : ℚ)| ≤ 667545 := by
      have h1 : 2 ^ 20 * (INV_PI_2_HIq + INV_PI_2_LOq) + 1 / 2 ≤ 667545 := by
        norm_num [INV_PI_2_HIq, INV_PI_2_LOq]
      have h2 : |(k : ℚ)| - |y| ≤ |(k : ℚ) - y| := abs_sub_abs_le_abs_sub _ _
      rw [abs_sub_comm] at h2
      linarith
    have hdelta : |1 - (INV_PI_2_HIq + INV_PI_2_LOq) * PI2full| ≤ 1 / 10 ^ 16 := by
      rw [abs_le]
      constructor <;>
        norm_num [INV_PI_2_HIq, INV_PI_2_LOq, PI2full, PI2_HIq, PI2_MIDq, PI2_LOq]
    have hidentity : (x - (k : ℚ) * PI2full) * (INV_PI_2_HIq + INV_PI_2_LOq) =
        (y - (k : ℚ)) + (k : ℚ) * (1 - (INV_PI_2_HIq + INV_PI_2_LOq) * PI2full) := by
      rw [hy]
      ring
    have hbound1 : |x - (k : ℚ) * PI2full| * (INV_PI_2_HIq + INV_PI_2_LOq) ≤
        1 / 2 + 667545 * (1 / 10 ^ 16) := by
      rw [← abs_of_pos hIpos, ← abs_mul, hidentity]
      have htri := abs_add (y - (k : ℚ))
        ((k : ℚ) * (1 - (INV_PI_2_HIq + INV_PI_2_LOq) * PI2full))
      rw [abs_mul] at htri
      have hmul := mul_le_mul hkabs hdelta (abs_nonneg _) (by norm_num)
      linarith
    have hrbound : |x - (k : ℚ) * PI2full| ≤ PI2full / 2 + 1 / 10 ^ 9 := by
      have hdiv : |x - (k : ℚ) * PI2full| ≤
          (1 / 2 + 667545 * (1 / 10 ^ 16)) / (INV_PI_2_HIq + INV_PI_2_LOq) :=
        (le_div_iff₀ hIpos).mpr hbound1
      have hfinal : (1 / 2 + 667545 * (1 / 10 ^ 16)) / (INV_PI_2_HIq + INV_PI_2_LOq) ≤
          PI2full / 2 + 1 / 10 ^ 9 := by
        rw [div_le_iff₀ hIpos]
        norm_num [INV_PI_2_HIq, INV_PI_2_LOq, PI2full, PI2_HIq, PI2_MIDq, PI2_LOq]
      linarith
    have hq := reduceCorrect_r_bound k (x - (k : ℚ) * PI2full) hrbound
    have hcast :
        |((reduceCorrect k (x - (k : ℚ) * PI2full)).2.1 : ℝ) +
          ((reduceCorrect k (x - (k : ℚ) * PI2full)).2.2 : ℝ)| ≤
        ((PI2full / 2 : ℚ) : ℝ) := by
      have : (((reduceCorrect k (x - (k : ℚ) * PI2full)).2.1 +
          (reduceCorrect k (x - (k : ℚ) * PI2full)).2.2 : ℚ) : ℝ) =
          ((reduceCorrect k (x - (k : ℚ) * PI2full)).2.1 : ℝ) +
          ((reduceCorrect k (x - (k : ℚ) * PI2full)).2.2 : ℝ) := by
        push_cast
        rfl
      rw [← this, ← Rat.cast_abs]
      exact_mod_cast hq
    have hpi : ((PI2full / 2 : ℚ) : ℝ) ≤ Real.pi / 4 := by
      have h20 := Real.pi_gt_d20
      have hc : ((PI2full / 2 : ℚ) : ℝ) ≤ (3.14159265358979323846 : ℝ) / 4 := by
        push_cast [PI2full, PI2_HIq, PI2_MIDq, PI2_LOq]
        norm_num
      linarith
    exact hcast.trans hpi

/-- Witness for C2 at the in-range input `1`. -/
theorem C2_witness :
    (0 ≤ (reducePi2 1).1 ∧ (reducePi2 1).1 < 4) ∧
    |((reducePi2 1).2.1 : ℝ) + ((reducePi2 1).2.2 : ℝ)| ≤ Real.pi / 4 :=
  ⟨(C2_reduction 1).1, (C2_reduction 1).2 (by norm_num)⟩

/-- C2 counterexample: at the finite input `x = 2^120` the reduced
remainder `r_hi + r_lo` exceeds `π/4` by nineteen orders of magnitude:
the post-correction adjusts `k` by at most two, which cannot confine the
remainder for large arguments. -/
theorem C2_counterexample :
    Real.pi / 4 <
      |((reducePi2 (2 ^ 120)).2.1 : ℝ) + ((reducePi2 (2 ^ 120)).2.2 : ℝ)| := by
  have hq : (1 : ℚ) < (reducePi2 (2 ^ 120)).2.1 + (reducePi2 (2 ^ 120)).2.2 := by
    rw [reducePi2_cooked]
    have hk : roundHalfEven
        ((2 : ℚ) ^ 120 * INV_PI_2_HIq + (2 : ℚ) ^ 120 * INV_PI_2_LOq) =
        846212824101209492640727113440018432 := by
      apply roundHalfEven_eq_of_lt
      · norm_num [INV_PI_2_HIq, INV_PI_2_LOq]
      · push_cast
        norm_num [INV_PI_2_HIq, INV_PI_2_LOq]
      · push_cast
        norm_num [INV_PI_2_HIq, INV_PI_2_LOq]
    rw [hk, reduceCorrect]
    push_cast
    norm_num [PI2full, PI2_HIq, PI2_MIDq, PI2_LOq]
  have hreal : (1 : ℝ) <
      ((reducePi2 (2 ^ 120)).2.1 : ℝ) + ((reducePi2 (2 ^ 120)).2.2 : ℝ) := by
    exact_mod_cast hq
  have hpi4 : Real.pi / 4 < 1 := by
    have := Real.pi_lt_four
    linarith
  calc Real.pi / 4 < 1 := hpi4
    _ < ((reducePi2 (2 ^ 120)).2.1 : ℝ) + ((reducePi2 (2 ^ 120)).2.2 : ℝ) := hreal
    _ ≤ |((reducePi2 (2 ^ 120)).2.1 : ℝ) + ((reducePi2 (2 ^ 120)).2.2 : ℝ)| :=
        le_abs_self _
